import Mathlib

/-!
Shallow embedding of the blog_apis repository (Rust / Rocket / Diesel / Postgres).

The store is modelled as three lists of rows (`users`, `posts`, `posts_tags`),
kept in insertion order.  UUIDs are modelled as `Nat`, timestamps as `Int`.

The read path (`PostRepository::find_with_user_and_tags`, src/repository.rs)
is embedded at the SQL row level: the two LEFT JOINs produce explicit join
rows (with `none` standing for SQL NULL), the shared WHERE clause is a
predicate over join rows whose ILIKE operator is modelled by a full
pattern matcher (`%`, `_` and backslash escapes, case-insensitive), the
COUNT(DISTINCT p.id) is the number of distinct post ids among the surviving
rows, GROUP BY is grouping of surviving rows by the 8-column key, and
ARRAY_AGG(DISTINCT pt.tag) FILTER (WHERE pt.tag IS NOT NULL) is the
de-duplicated list of non-NULL tags of the group.  ORDER BY p.created_at DESC
is modelled as an executable sort on the descending timestamp key (one
deterministic refinement of the clause: the database guarantees no order
among equal timestamps, and no theorem below depends on the tie order), and
LIMIT/OFFSET as take/drop.  Rust's `i64` arithmetic is modelled on `Int`
(`Int.tdiv` is Rust's truncating `/`); the division by zero that Rust
panics on is modelled as the `panicked` error, and the Postgres rejection
of negative LIMIT/OFFSET as `queryFailed`.

The write path (`PostRepository::create_with_tags`) is embedded as two
fallible row inserts (primary-key and foreign-key checks of schema.rs)
sequenced inside an explicit transaction combinator that discards the
intermediate state on error.
-/

/-- Row of the `users` table (models.rs `User`). -/
structure User where
  id : Nat
  username : String
  first_name : String
  last_name : String
  created_at : Int
deriving DecidableEq

/-- Row of the `posts` table (models.rs `Post`). -/
structure Post where
  id : Nat
  title : String
  body : String
  created_by : Nat
  created_at : Int
deriving DecidableEq

/-- Row of the `posts_tags` association table (models.rs `PostTag`);
its composite primary key is the whole row. -/
structure PostTag where
  fk_post_id : Nat
  tag : String
deriving DecidableEq

/-- The relational store: the three tables of schema.rs, rows in insertion order. -/
structure DB where
  users : List User
  posts : List Post
  posts_tags : List PostTag
deriving DecidableEq

/-- Author sub-record of a listed post (models.rs `CreatedBy`). -/
structure CreatedBy where
  user_id : Nat
  username : String
  first_name : String
  last_name : Option String
deriving DecidableEq

/-- One record of the listing response (models.rs `PostWithUserAndTags`). -/
structure PostWithUserAndTags where
  id : Nat
  title : String
  body : String
  created_by : Option CreatedBy
  created_at : Int
  tags : List String
deriving DecidableEq

/-- Pagination metadata (models.rs `PaginationMeta`).  The source fields
`from` and `to` are reserved words in Lean and are embedded as `from_`, `to_`. -/
structure PaginationMeta where
  current_page : Int
  per_page : Int
  from_ : Int
  to_ : Int
  total_pages : Int
  total_docs : Int
deriving DecidableEq

/-- Failure modes of the embedded repository functions.  `panicked` models a
Rust panic (integer division by zero), `queryFailed` a Postgres error on the
read path (negative LIMIT/OFFSET), `writeFailed` a constraint violation
aborting the write transaction. -/
inductive RepoError where
  | writeFailed
  | queryFailed
  | panicked
deriving DecidableEq

deriving instance DecidableEq for Except

/-- Case-insensitive character comparison, as used by Postgres ILIKE. -/
def charEqCI (a b : Char) : Bool := a.toLower == b.toLower

/-- Postgres LIKE/ILIKE pattern matching (case-insensitive): `%` matches any
substring, `_` any single character, backslash escapes the next pattern
character.  A pattern ending in a bare backslash matches nothing (Postgres
raises an error for such patterns).  The `%` case is expressed through
`List.tails` so that the recursion is structural in the pattern. -/
def likeMatches : List Char → List Char → Bool
  | [], s => s.isEmpty
  | '%' :: ps, s => s.tails.any fun t => likeMatches ps t
  | '_' :: ps, s =>
    match s with
    | [] => false
    | _ :: s' => likeMatches ps s'
  | '\\' :: ps, s =>
    match ps, s with
    | [], _ => false
    | _ :: _, [] => false
    | q :: ps', d :: s' => charEqCI q d && likeMatches ps' s'
  | c :: ps, s =>
    match s with
    | [] => false
    | d :: s' => charEqCI c d && likeMatches ps s'

/-- `s ILIKE pat` for a non-NULL string operand. -/
def ilikeStr (s : String) (pat : List Char) : Bool := likeMatches pat s.data

/-- `x ILIKE pat` for a nullable string operand: NULL ILIKE anything is not true. -/
def optILike (x : Option String) (pat : List Char) : Bool :=
  match x with
  | none => false
  | some s => ilikeStr s pat

/-- The bound search pattern: `search.map(|s| format!("%{s}%"))` (repository.rs:117). -/
def searchPattern (search : Option String) : Option (List Char) :=
  search.map fun s => '%' :: (s.data ++ ['%'])

/-- The WHERE clause shared by the count and the main query
(repository.rs:108-114 and 141-147): the bound pattern is NULL, or one of
title, body, username, first_name, last_name, tag matches it. -/
def rowMatches (pat : Option (List Char)) (p : Post) (u : Option User)
    (t : Option PostTag) : Bool :=
  match pat with
  | none => true
  | some q =>
    ilikeStr p.title q || ilikeStr p.body q ||
      optILike (u.map (·.username)) q || optILike (u.map (·.first_name)) q ||
      optILike (u.map (·.last_name)) q || optILike (t.map (·.tag)) q

/-- `posts p LEFT JOIN users u ON p.created_by = u.id`: the user sides paired
with a given post row; a single NULL side when no user matches. -/
def userJoin (db : DB) (p : Post) : List (Option User) :=
  let ms := db.users.filter fun u => u.id == p.created_by
  if ms.isEmpty then [none] else ms.map some

/-- `... LEFT JOIN posts_tags pt ON p.id = pt.fk_post_id`: the tag sides
paired with a given post row; a single NULL side when no tag row matches. -/
def tagJoin (db : DB) (p : Post) : List (Option PostTag) :=
  let ms := db.posts_tags.filter fun t => t.fk_post_id == p.id
  if ms.isEmpty then [none] else ms.map some

/-- One row of the three-way left join. -/
abbrev JoinRow := Post × Option User × Option PostTag

/-- All join rows contributed by one post. -/
def postRows (db : DB) (p : Post) : List JoinRow :=
  (userJoin db p).flatMap fun u => (tagJoin db p).map fun t => (p, u, t)

/-- The full row set of `posts LEFT JOIN users LEFT JOIN posts_tags`. -/
def joinedRows (db : DB) : List JoinRow := db.posts.flatMap (postRows db)

/-- The WHERE clause as a predicate on join rows. -/
def rowMatchesR (pat : Option (List Char)) (r : JoinRow) : Bool :=
  rowMatches pat r.1 r.2.1 r.2.2

/-- The join rows surviving the WHERE clause. -/
def filteredRows (db : DB) (pat : Option (List Char)) : List JoinRow :=
  (joinedRows db).filter (rowMatchesR pat)

/-- `SELECT COUNT(DISTINCT p.id) ... WHERE ...` (repository.rs:103-115). -/
def countDistinctIds (db : DB) (pat : Option (List Char)) : Int :=
  (((filteredRows db pat).map fun r => r.1.id).dedup).length

/-- The GROUP BY key of the main query (repository.rs:148): the post columns
together with the nullable user columns. -/
structure GroupKey where
  id : Nat
  title : String
  body : String
  created_at : Int
  user_id : Option Nat
  username : Option String
  first_name : Option String
  last_name : Option String
deriving DecidableEq

/-- The GROUP BY key of a join row. -/
def rowKey (r : JoinRow) : GroupKey :=
  { id := r.1.id, title := r.1.title, body := r.1.body, created_at := r.1.created_at,
    user_id := r.2.1.map (·.id), username := r.2.1.map (·.username),
    first_name := r.2.1.map (·.first_name), last_name := r.2.1.map (·.last_name) }

/-- One output row of the main query (repository.rs `PostWithTagsQueryResult`):
the SQL array carries nullable text elements. -/
structure QueryRow where
  id : Nat
  title : String
  body : String
  created_at : Int
  user_id : Option Nat
  username : Option String
  first_name : Option String
  last_name : Option String
  tags : List (Option String)
deriving DecidableEq

/-- `COALESCE(ARRAY_AGG(DISTINCT pt.tag) FILTER (WHERE pt.tag IS NOT NULL), '\x7b\x7d')`
over the rows of one group: the de-duplicated non-NULL tags of the group
(an empty array when every row of the group has a NULL tag). -/
def aggTags (rows : List JoinRow) (k : GroupKey) : List (Option String) :=
  (((rows.filter fun r => rowKey r == k).filterMap fun r => r.2.2).map
    fun t => some t.tag).dedup

/-- The grouped output of the main query: one row per distinct GROUP BY key of
the filtered join rows, with the tag aggregate of its group. -/
def groupedRows (db : DB) (pat : Option (List Char)) : List QueryRow :=
  let rows := filteredRows db pat
  ((rows.map rowKey).dedup).map fun k =>
    { id := k.id, title := k.title, body := k.body, created_at := k.created_at,
      user_id := k.user_id, username := k.username, first_name := k.first_name,
      last_name := k.last_name, tags := aggTags rows k }

/-- `ORDER BY p.created_at DESC`: the sort relation, newest first. -/
def rowLE (a b : QueryRow) : Prop := b.created_at ≤ a.created_at

instance : DecidableRel rowLE := fun a b => Int.decLe b.created_at a.created_at

instance : IsTotal QueryRow rowLE := ⟨fun a b => le_total b.created_at a.created_at⟩

instance : IsTrans QueryRow rowLE := ⟨fun _ _ _ hab hbc => le_trans hbc hab⟩

/-- The grouped rows sorted newest-first.  `ORDER BY p.created_at DESC`
constrains only the timestamp order: among equal timestamps the database
guarantees no particular order.  An executable model must pick one output,
and this insertion sort is one deterministic refinement of the ORDER BY
clause; no theorem in this file relies on the order it produces among rows
with equal timestamps. -/
def sortedRows (db : DB) (pat : Option (List Char)) : List QueryRow :=
  (groupedRows db pat).insertionSort rowLE

/-- The Rust assembly of one fetched row (repository.rs:162-186): the author
sub-record is built only when user_id, username and first_name are all
non-NULL; the tag array is flattened, dropping NULL placeholders. -/
def assembleRecord (r : QueryRow) : PostWithUserAndTags :=
  { id := r.id, title := r.title, body := r.body,
    created_by :=
      match r.user_id, r.username, r.first_name with
      | some uid, some un, some fn =>
        some { user_id := uid, username := un, first_name := fn, last_name := r.last_name }
      | _, _, _ => none,
    created_at := r.created_at,
    tags := r.tags.filterMap id }

/-- `PostRepository::find_with_user_and_tags` (repository.rs:94-199).
The count query runs first; the `total_pages` division panics when
`limit = 0`; the main query fails when LIMIT or OFFSET is negative;
otherwise the page slice is fetched, assembled and returned together with
the pagination metadata. -/
def find_with_user_and_tags (db : DB) (page limit : Int) (search : Option String) :
    Except RepoError (List PostWithUserAndTags × PaginationMeta) :=
  let offset := (page - 1) * limit
  let pat := searchPattern search
  let total_docs : Int := countDistinctIds db pat
  if limit = 0 then .error .panicked
  else
    let total_pages := Int.tdiv (total_docs + limit - 1) limit
    if limit < 0 ∨ offset < 0 then .error .queryFailed
    else
      let records := (((sortedRows db pat).drop offset.toNat).take limit.toNat).map
        assembleRecord
      .ok (records,
        { current_page := page, per_page := limit, from_ := offset + 1,
          to_ := min (offset + limit) total_docs,
          total_pages := total_pages, total_docs := total_docs })

/-- The `GET /api/posts` handler (handlers.rs:59-72): absent `page` defaults
to 1, absent `limit` to 10, `search` is forwarded as-is. -/
def list_posts (db : DB) (page limit : Option Int) (search : Option String) :
    Except RepoError (List PostWithUserAndTags × PaginationMeta) :=
  find_with_user_and_tags db (page.getD 1) (limit.getD 10) search

/-- INSERT of the post row: fails on a primary-key clash or a missing
`created_by` user (foreign key of schema.rs). -/
def insertPost (db : DB) (p : Post) : Except RepoError DB :=
  if (db.posts.map (·.id)).contains p.id then .error .writeFailed
  else if db.users.any fun u => u.id == p.created_by then
    .ok { db with posts := db.posts ++ [p] }
  else .error .writeFailed

/-- Bulk INSERT of the tag association rows: fails if the composite primary
key `(fk_post_id, tag)` would be violated (by an existing row or inside the
inserted batch) or if a referenced post does not exist. -/
def insertPostTags (db : DB) (rows : List PostTag) : Except RepoError DB :=
  if (rows.all fun r => db.posts.any fun p => p.id == r.fk_post_id) &&
      decide (db.posts_tags ++ rows).Nodup then
    .ok { db with posts_tags := db.posts_tags ++ rows }
  else .error .writeFailed

/-- `conn.transaction(...)`: on success the final state of the body persists,
on error the store is rolled back to the state before the transaction. -/
def runTransaction (db : DB) (body : DB → Except RepoError (DB × Post)) :
    DB × Except RepoError Post :=
  match body db with
  | .ok (db', p) => (db', .ok p)
  | .error e => (db, .error e)

/-- `PostRepository::create_with_tags` (repository.rs:58-92): inside one
transaction, insert the post row, then — only if the tag list is non-empty —
one association row per supplied tag. -/
def create_with_tags (db : DB) (post : Post) (tags : List String) :
    DB × Except RepoError Post :=
  runTransaction db fun db0 =>
    match insertPost db0 post with
    | .error e => .error e
    | .ok db1 =>
      if tags.isEmpty then .ok (db1, post)
      else
        match insertPostTags db1 (tags.map fun tag => { fk_post_id := post.id, tag := tag }) with
        | .error e => .error e
        | .ok db2 => .ok (db2, post)

/-- The single user row the author lookup of a post can resolve to. -/
def authorOf (db : DB) (p : Post) : Option User :=
  db.users.find? fun u => u.id == p.created_by

/-- The tag rows of a post, in insertion order. -/
def tagRowsOf (db : DB) (p : Post) : List PostTag :=
  db.posts_tags.filter fun t => t.fk_post_id == p.id

/-- Whether a post satisfies the listing filter: some join row of the post
survives the WHERE clause. -/
def postMatches (db : DB) (pat : Option (List Char)) (p : Post) : Bool :=
  (userJoin db p).any fun u => (tagJoin db p).any fun t => rowMatches pat p u t

/-- The posts satisfying the listing filter, in insertion order. -/
def matchingPosts (db : DB) (pat : Option (List Char)) : List Post :=
  db.posts.filter (postMatches db pat)

/-- Database well-formedness, as enforced by the schema of schema.rs:
post ids and user ids are primary keys, and the pair `(fk_post_id, tag)` is
the composite primary key of `posts_tags`. -/
def WF (db : DB) : Prop :=
  (db.posts.map (·.id)).Nodup ∧ (db.users.map (·.id)).Nodup ∧ db.posts_tags.Nodup

instance (db : DB) : Decidable (WF db) := by
  unfold WF; infer_instance

/-- Case-insensitive unanchored substring test, following the words of the
specification ("the term occurs as a case-insensitive unanchored substring"). -/
def ciSubstr (needle hay : String) : Bool :=
  (hay.data.map Char.toLower).tails.any fun suf =>
    (needle.data.map Char.toLower).isPrefixOf suf

/-- The listing filter as the specification words it: the term occurs as a
case-insensitive substring of the post title, the post body, the author's
username, first name or last name, or of at least one of the post's tags. -/
def specSearchMatches (db : DB) (term : String) (p : Post) : Bool :=
  ciSubstr term p.title || ciSubstr term p.body ||
    (match authorOf db p with
     | some u => ciSubstr term u.username || ciSubstr term u.first_name ||
         ciSubstr term u.last_name
     | none => false) ||
    (tagRowsOf db p).any fun t => ciSubstr term t.tag

/-! Generic list lemmas used to analyse the grouped join. -/

/-- Two booleans agree when their truth conditions do. -/
theorem bool_eq_of_iff {a b : Bool} (h : a = true ↔ b = true) : a = b := by
  cases a <;> cases b <;> simp_all

/-- Deduplicating a block of equal values followed by a list not containing
that value keeps a single copy of the value in front. -/
theorem dedup_const_append {α : Type} [DecidableEq α] (k : α) (ys : List α) (hk : k ∉ ys) :
    ∀ xs : List α, (∀ x ∈ xs, x = k) →
      (xs ++ ys).dedup = if xs.isEmpty then ys.dedup else k :: ys.dedup := by
  intro xs
  induction xs with
  | nil => intro _; simp
  | cons a xs ih =>
    intro hxs
    have ha : a = k := hxs a (by simp)
    subst ha
    have ih' := ih fun x hx => hxs x (by simp [hx])
    cases xs with
    | nil =>
      rw [List.cons_append, List.nil_append, List.dedup_cons_of_not_mem hk]
      simp
    | cons b xs' =>
      have hb : b = a := hxs b (by simp)
      have hmem : a ∈ (b :: xs') ++ ys := by simp [hb]
      rw [List.cons_append, List.dedup_cons_of_mem hmem, ih']
      simp

/-- Deduplicating a concatenation of blocks, each block holding copies of its
key only, with pairwise distinct keys: one key per non-empty block survives. -/
theorem dedup_flatMap_blocks {β γ : Type} [DecidableEq γ] (f : β → List γ) (g : β → γ) :
    ∀ l : List β, (∀ b ∈ l, ∀ x ∈ f b, x = g b) → (l.map g).Nodup →
      (l.flatMap f).dedup = (l.filter fun b => !(f b).isEmpty).map g := by
  intro l
  induction l with
  | nil => intro _ _; simp
  | cons b t ih =>
    intro hconst hnd
    rw [List.map_cons, List.nodup_cons] at hnd
    have hk : g b ∉ t.flatMap f := by
      intro hmem
      rcases List.mem_flatMap.mp hmem with ⟨b', hb', hx⟩
      have hgg : g b = g b' := hconst b' (by simp [hb']) _ hx
      exact hnd.1 (hgg ▸ List.mem_map_of_mem _ hb')
    rw [List.flatMap_cons,
      dedup_const_append (g b) (t.flatMap f) hk (f b) (fun x hx => hconst b (by simp) x hx),
      ih (fun b' hb' x hx => hconst b' (by simp [hb']) x hx) hnd.2]
    by_cases hfb : (f b).isEmpty
    · simp [hfb]
    · simp [hfb]

/-- Filtering a concatenation of keyed blocks by the key of one block present
in the list returns exactly that block. -/
theorem filter_flatMap_key {β ρ κ : Type} [DecidableEq κ] (f : β → List ρ) (key : ρ → κ)
    (g : β → κ) (b0 : β) :
    ∀ l : List β, (∀ b ∈ l, ∀ x ∈ f b, key x = g b) → (l.map g).Nodup → b0 ∈ l →
      ((l.flatMap f).filter fun x => key x == g b0) = f b0 := by
  intro l
  induction l with
  | nil => intro _ _ h; cases h
  | cons b t ih =>
    intro hconst hnd hb0
    rw [List.map_cons, List.nodup_cons] at hnd
    rw [List.flatMap_cons, List.filter_append]
    rcases List.mem_cons.mp hb0 with hb | hb
    · subst hb
      have h1 : (f b0).filter (fun x => key x == g b0) = f b0 :=
        List.filter_eq_self.mpr fun x hx => by simp [hconst b0 (by simp) x hx]
      have h2 : (t.flatMap f).filter (fun x => key x == g b0) = [] := by
        apply List.filter_eq_nil_iff.mpr
        intro x hx
        rcases List.mem_flatMap.mp hx with ⟨b', hb', hxb⟩
        have hkey : key x = g b' := hconst b' (by simp [hb']) x hxb
        simp only [hkey, beq_iff_eq]
        intro hgg
        exact hnd.1 (hgg ▸ List.mem_map_of_mem _ hb')
      rw [h1, h2, List.append_nil]
    · have h1 : (f b).filter (fun x => key x == g b0) = [] := by
        apply List.filter_eq_nil_iff.mpr
        intro x hx
        have hkey : key x = g b := hconst b (by simp) x hx
        simp only [hkey, beq_iff_eq]
        intro hgg
        exact hnd.1 (hgg.symm ▸ List.mem_map_of_mem _ hb)
      rw [h1, List.nil_append]
      exact ih (fun b' hb' => hconst b' (by simp [hb'])) hnd.2 hb

/-! Structure of the join rows of one post. -/

theorem userJoin_ne_nil (db : DB) (p : Post) : userJoin db p ≠ [] := by
  unfold userJoin
  simp only []
  split
  · simp
  · next h =>
    intro hc
    rw [List.map_eq_nil_iff] at hc
    simp [hc] at h

theorem tagJoin_ne_nil (db : DB) (p : Post) : tagJoin db p ≠ [] := by
  unfold tagJoin
  simp only []
  split
  · simp
  · next h =>
    intro hc
    rw [List.map_eq_nil_iff] at hc
    simp [hc] at h

/-- In a list of users with pairwise distinct ids, filtering by an id is
finding by that id. -/
theorem filter_eq_find_toList (c : Nat) :
    ∀ l : List User, (l.map (·.id)).Nodup →
      (l.filter fun u => u.id == c) = (l.find? fun u => u.id == c).toList := by
  intro l
  induction l with
  | nil => simp
  | cons a t ih =>
    intro hnd
    rw [List.map_cons, List.nodup_cons] at hnd
    by_cases ha : a.id = c
    · rw [List.filter_cons_of_pos (by simp [ha]), List.find?_cons_of_pos _ (by simp [ha])]
      have ht : t.filter (fun u => u.id == c) = [] := by
        apply List.filter_eq_nil_iff.mpr
        intro u hu hq
        have huc : u.id = c := by simpa using hq
        exact hnd.1 (by rw [ha, ← huc]; exact List.mem_map_of_mem _ hu)
      simp [ht]
    · rw [List.filter_cons_of_neg (by simp [ha]), List.find?_cons_of_neg _ (by simp [ha]),
        ih hnd.2]

/-- Under the users primary key, the user side of the left join of a post is
exactly its (optional, unique) author. -/
theorem userJoin_eq (db : DB) (p : Post) (h : (db.users.map (·.id)).Nodup) :
    userJoin db p = [authorOf db p] := by
  unfold userJoin authorOf
  rw [filter_eq_find_toList p.created_by db.users h]
  cases hfind : db.users.find? fun u => u.id == p.created_by with
  | none => simp
  | some u => simp

/-- The tag side of the left join of a post, described by its tag rows. -/
theorem tagJoin_eq (db : DB) (p : Post) :
    tagJoin db p = if (tagRowsOf db p).isEmpty then [none]
      else (tagRowsOf db p).map some := rfl

theorem postRows_eq (db : DB) (p : Post) (h : (db.users.map (·.id)).Nodup) :
    postRows db p = (tagJoin db p).map fun t => (p, authorOf db p, t) := by
  rw [postRows, userJoin_eq db p h]
  simp

/-- The join rows of one post surviving the WHERE clause. -/
def postRowsF (db : DB) (pat : Option (List Char)) (p : Post) : List JoinRow :=
  (postRows db p).filter (rowMatchesR pat)

theorem filteredRows_eq_flatMap (db : DB) (pat : Option (List Char)) :
    filteredRows db pat = db.posts.flatMap (postRowsF db pat) := by
  unfold filteredRows joinedRows postRowsF
  rw [List.filter_flatMap]

theorem mem_postRows_fst (db : DB) (p : Post) : ∀ r ∈ postRows db p, r.1 = p := by
  intro r hr
  rcases List.mem_flatMap.mp hr with ⟨u, _, hr2⟩
  rcases List.mem_map.mp hr2 with ⟨t, _, rfl⟩
  rfl

theorem mem_postRowsF_fst (db : DB) (pat : Option (List Char)) (p : Post) :
    ∀ r ∈ postRowsF db pat p, r.1 = p := fun r hr =>
  mem_postRows_fst db p r (List.mem_of_mem_filter hr)

/-- The GROUP BY key contributed by a post (the tag column is not part of it). -/
def keyOfPost (db : DB) (p : Post) : GroupKey := rowKey (p, authorOf db p, none)

theorem mem_postRowsF_key (db : DB) (pat : Option (List Char)) (p : Post)
    (h : (db.users.map (·.id)).Nodup) :
    ∀ r ∈ postRowsF db pat p, rowKey r = keyOfPost db p := by
  intro r hr
  have hr' := List.mem_of_mem_filter hr
  rw [postRows_eq db p h] at hr'
  rcases List.mem_map.mp hr' with ⟨t, _, rfl⟩
  rfl

/-- A post contributes a surviving join row exactly when it matches the filter. -/
theorem postRowsF_ne_nil (db : DB) (pat : Option (List Char)) (p : Post) :
    (!(postRowsF db pat p).isEmpty) = postMatches db pat p := by
  apply bool_eq_of_iff
  rw [Bool.not_eq_true', ← Bool.not_eq_true]
  unfold postRowsF postMatches
  simp only [List.isEmpty_iff, List.filter_eq_nil_iff, List.any_eq_true, postRows,
    List.mem_flatMap, List.mem_map, rowMatchesR, not_forall]
  constructor
  · rintro ⟨r, hr, hm⟩
    rcases hr with ⟨u, hu, t, ht, rfl⟩
    simp only [not_not] at hm
    exact ⟨u, hu, t, ht, hm⟩
  · rintro ⟨u, hu, t, ht, hm⟩
    exact ⟨(p, u, t), ⟨u, hu, t, ht, rfl⟩, by simp [hm]⟩

/-! The grouped output, characterised post-by-post under the schema keys. -/

/-- The tag aggregate of one post: the de-duplicated non-NULL tags of its
surviving join rows (only rows that pass the WHERE clause are aggregated). -/
def aggTagsOf (db : DB) (pat : Option (List Char)) (p : Post) : List (Option String) :=
  (((postRowsF db pat p).filterMap fun r => r.2.2).map fun t => some t.tag).dedup

/-- The query output row of one matching post. -/
def queryRowOf (db : DB) (pat : Option (List Char)) (p : Post) : QueryRow :=
  { id := p.id, title := p.title, body := p.body, created_at := p.created_at,
    user_id := (authorOf db p).map (·.id), username := (authorOf db p).map (·.username),
    first_name := (authorOf db p).map (·.first_name),
    last_name := (authorOf db p).map (·.last_name),
    tags := aggTagsOf db pat p }

theorem keys_nodup (db : DB) (hwf : WF db) : (db.posts.map (keyOfPost db)).Nodup := by
  have h1 : ((db.posts.map (keyOfPost db)).map (·.id)) = db.posts.map (·.id) := by
    rw [List.map_map]; rfl
  exact List.Nodup.of_map (·.id) (h1 ▸ hwf.1)

theorem map_isEmpty_postRowsF (db : DB) (pat : Option (List Char)) (p : Post)
    (f : JoinRow → γ) :
    (!((postRowsF db pat p).map f).isEmpty) = postMatches db pat p := by
  rw [← postRowsF_ne_nil db pat p]
  cases (postRowsF db pat p) <;> simp

/-- Under the schema keys, the grouped query output is one row per matching
post, in store order. -/
theorem groupedRows_eq (db : DB) (pat : Option (List Char)) (hwf : WF db) :
    groupedRows db pat = (matchingPosts db pat).map (queryRowOf db pat) := by
  have hu := hwf.2.1
  show ((filteredRows db pat).map rowKey).dedup.map _ = _
  rw [filteredRows_eq_flatMap, List.map_flatMap]
  rw [dedup_flatMap_blocks (fun p => (postRowsF db pat p).map rowKey) (keyOfPost db) db.posts
      (fun p hp x hx => by
        rcases List.mem_map.mp hx with ⟨r, hr, rfl⟩
        exact mem_postRowsF_key db pat p hu r hr)
      (keys_nodup db hwf)]
  have hfilter : (db.posts.filter fun p => !((postRowsF db pat p).map rowKey).isEmpty)
      = matchingPosts db pat :=
    List.filter_congr fun p _ => map_isEmpty_postRowsF db pat p rowKey
  rw [hfilter, List.map_map]
  apply List.map_congr_left
  intro p hp
  have hagg : aggTags (db.posts.flatMap (postRowsF db pat)) (keyOfPost db p)
      = aggTagsOf db pat p := by
    unfold aggTags aggTagsOf
    rw [filter_flatMap_key (postRowsF db pat) rowKey (keyOfPost db) p db.posts
      (fun b hb x hx => mem_postRowsF_key db pat b hu x hx)
      (keys_nodup db hwf) (List.mem_of_mem_filter hp)]
  show _ = queryRowOf db pat p
  rw [Function.comp_apply, ← filteredRows_eq_flatMap] at *
  rw [hagg]
  rfl

/-- COUNT(DISTINCT p.id) is the number of matching posts. -/
theorem countDistinct_eq (db : DB) (pat : Option (List Char)) (hwf : WF db) :
    countDistinctIds db pat = ((matchingPosts db pat).length : Int) := by
  unfold countDistinctIds
  rw [filteredRows_eq_flatMap, List.map_flatMap]
  rw [dedup_flatMap_blocks (fun p => (postRowsF db pat p).map fun r => r.1.id) (·.id) db.posts
      (fun p hp x hx => by
        rcases List.mem_map.mp hx with ⟨r, hr, rfl⟩
        rw [mem_postRowsF_fst db pat p r hr])
      hwf.1]
  have hfilter : (db.posts.filter fun p => !((postRowsF db pat p).map fun r => r.1.id).isEmpty)
      = matchingPosts db pat :=
    List.filter_congr fun p _ => map_isEmpty_postRowsF db pat p _
  rw [hfilter, List.length_map]

/-! Sorting and the success path of the read query. -/

theorem sortedRows_perm (db : DB) (pat : Option (List Char)) :
    (sortedRows db pat).Perm (groupedRows db pat) :=
  List.perm_insertionSort rowLE _

theorem sortedRows_sorted (db : DB) (pat : Option (List Char)) :
    (sortedRows db pat).Pairwise rowLE :=
  List.sorted_insertionSort rowLE _

/-- On a valid request the read path succeeds, returning the assembled page
slice of the sorted rows and metadata computed from the distinct count. -/
theorem find_ok (db : DB) (page limit : Int) (search : Option String)
    (hp : 1 ≤ page) (hl : 1 ≤ limit) :
    find_with_user_and_tags db page limit search =
      .ok ((((sortedRows db (searchPattern search)).drop ((page - 1) * limit).toNat).take
              limit.toNat).map assembleRecord,
        { current_page := page, per_page := limit, from_ := (page - 1) * limit + 1,
          to_ := min ((page - 1) * limit + limit) (countDistinctIds db (searchPattern search)),
          total_pages := Int.tdiv (countDistinctIds db (searchPattern search) + limit - 1) limit,
          total_docs := countDistinctIds db (searchPattern search) }) := by
  have h0 : ¬(limit = 0) := by omega
  have hoff : 0 ≤ (page - 1) * limit := mul_nonneg (by omega) (by omega)
  have h1 : ¬(limit < 0 ∨ (page - 1) * limit < 0) := by
    push_neg
    exact ⟨by omega, hoff⟩
  unfold find_with_user_and_tags
  rw [if_neg h0, if_neg h1]

/-- Rust's truncating division computes the ceiling of `N / l` for
`0 ≤ N`, `1 ≤ l`. -/
theorem tdiv_ceil (N l : Int) (hN : 0 ≤ N) (hl : 1 ≤ l) :
    Int.tdiv (N + l - 1) l = ⌈(N : ℚ) / (l : ℚ)⌉ := by
  rw [Int.tdiv_eq_ediv (by omega) (by omega)]
  symm
  rw [Int.ceil_eq_iff]
  have hdm := Int.ediv_add_emod (N + l - 1) l
  have hm0 : 0 ≤ (N + l - 1) % l := Int.emod_nonneg _ (by omega)
  have hml : (N + l - 1) % l < l := Int.emod_lt_of_pos _ (by omega)
  have hlQ : (0 : ℚ) < (l : ℚ) := by exact_mod_cast (by omega : (0 : ℤ) < l)
  set q := (N + l - 1) / l with hq
  have hub : N ≤ l * q := by linarith
  have hlb : l * q - l < N := by linarith
  constructor
  · rw [lt_div_iff₀ hlQ]
    have h4 : (q - 1) * l < N := by nlinarith
    exact_mod_cast h4
  · rw [div_le_iff₀ hlQ]
    have h5 : N ≤ q * l := by nlinarith
    exact_mod_cast h5

/-! Theory of the ILIKE matcher: a pattern `%lit%` with a wildcard-free body
matches exactly the strings containing `lit` case-insensitively. -/

theorem likeMatches_pct (ps s : List Char) :
    likeMatches ('%' :: ps) s = s.tails.any fun t => likeMatches ps t := rfl

theorem likeMatches_end_pct (s : List Char) : likeMatches ['%'] s = true := by
  rw [likeMatches_pct, List.any_eq_true]
  exact ⟨[], (List.mem_tails _ _).mpr List.nil_suffix, rfl⟩

theorem likeMatches_lit_cons (c : Char) (hc : c ≠ '%' ∧ c ≠ '_' ∧ c ≠ '\\') (ps : List Char) :
    (likeMatches (c :: ps) [] = false) ∧
    (∀ d s', likeMatches (c :: ps) (d :: s') = (charEqCI c d && likeMatches ps s')) := by
  rcases hc with ⟨h1, h2, h3⟩
  constructor
  · rw [likeMatches] <;> assumption
  · intro d s'
    rw [likeMatches] <;> assumption

theorem likeMatches_lit_append (ps : List Char) :
    ∀ t : List Char, (∀ c ∈ t, c ≠ '%' ∧ c ≠ '_' ∧ c ≠ '\\') → ∀ s : List Char,
      (likeMatches (t ++ ps) s = true ↔
        ∃ s1 s2, s = s1 ++ s2 ∧ s1.map Char.toLower = t.map Char.toLower ∧
          likeMatches ps s2 = true) := by
  intro t
  induction t with
  | nil =>
    intro _ s
    simp only [List.nil_append, List.map_nil]
    constructor
    · intro h; exact ⟨[], s, rfl, by simp, h⟩
    · rintro ⟨s1, s2, rfl, h1, h2⟩
      rw [List.map_eq_nil_iff] at h1
      subst h1; simpa using h2
  | cons c t ih =>
    intro hc s
    have hch := hc c (by simp)
    have iht := ih fun x hx => hc x (by simp [hx])
    cases s with
    | nil =>
      rw [List.cons_append, (likeMatches_lit_cons c hch _).1]
      constructor
      · intro h; cases h
      · rintro ⟨s1, s2, hs, h1, h2⟩
        cases s1 with
        | nil => simp at h1
        | cons e s1' => simp at hs
    | cons d s' =>
      rw [List.cons_append, (likeMatches_lit_cons c hch _).2 d s']
      constructor
      · intro h
        rw [Bool.and_eq_true] at h
        rcases (iht s').mp h.2 with ⟨s1, s2, rfl, h1, h2⟩
        refine ⟨d :: s1, s2, rfl, ?_, h2⟩
        have hcd : d.toLower = c.toLower := by
          have := h.1
          unfold charEqCI at this
          exact (beq_iff_eq.mp this).symm
        simp [h1, hcd]
      · rintro ⟨s1, s2, hs, h1, h2⟩
        cases s1 with
        | nil => simp at h1
        | cons e s1' =>
          rw [List.cons_append] at hs
          injection hs with hde hs'
          subst hde
          rw [List.map_cons, List.map_cons] at h1
          injection h1 with hec h1'
          rw [Bool.and_eq_true]
          constructor
          · unfold charEqCI
            exact beq_iff_eq.mpr hec.symm
          · exact (iht s').mpr ⟨s1', s2, hs', h1', h2⟩

theorem likeMatches_pct_lit_pct (t : List Char) (ht : ∀ c ∈ t, c ≠ '%' ∧ c ≠ '_' ∧ c ≠ '\\')
    (s : List Char) :
    likeMatches ('%' :: (t ++ ['%'])) s = true ↔
      ∃ a b c, s = a ++ b ++ c ∧ b.map Char.toLower = t.map Char.toLower := by
  rw [likeMatches_pct, List.any_eq_true]
  constructor
  · rintro ⟨u, hu, hmatch⟩
    rcases (likeMatches_lit_append ['%'] t ht u).mp hmatch with ⟨s1, s2, rfl, h1, _⟩
    rcases (List.mem_tails _ _).mp hu with ⟨a, ha⟩
    exact ⟨a, s1, s2, by rw [← ha, ← List.append_assoc], h1⟩
  · rintro ⟨a, b, c, rfl, hb⟩
    refine ⟨b ++ c, ?_, ?_⟩
    · rw [List.mem_tails]
      exact ⟨a, by rw [List.append_assoc]⟩
    · exact (likeMatches_lit_append ['%'] t ht _).mpr ⟨b, c, rfl, hb, likeMatches_end_pct c⟩

theorem isPrefixOf_iff_exists {α : Type} [BEq α] [LawfulBEq α] :
    ∀ xs ys : List α, xs.isPrefixOf ys = true ↔ ∃ zs, ys = xs ++ zs := by
  intro xs
  induction xs with
  | nil => intro ys; simp [List.isPrefixOf]
  | cons a xs ih =>
    intro ys
    cases ys with
    | nil => simp [List.isPrefixOf]
    | cons b ys' =>
      simp only [List.isPrefixOf, Bool.and_eq_true, beq_iff_eq, ih ys', List.cons_append]
      constructor
      · rintro ⟨rfl, zs, rfl⟩; exact ⟨zs, rfl⟩
      · rintro ⟨zs, hz⟩
        injection hz with h1 h2
        exact ⟨h1.symm, zs, h2⟩

theorem ciSubstr_iff (needle hay : String) :
    ciSubstr needle hay = true ↔
      ∃ a b, hay.data.map Char.toLower = a ++ needle.data.map Char.toLower ++ b := by
  unfold ciSubstr
  rw [List.any_eq_true]
  constructor
  · rintro ⟨suf, hsuf, hpre⟩
    rcases (List.mem_tails _ _).mp hsuf with ⟨a, ha⟩
    rcases (isPrefixOf_iff_exists _ _).mp hpre with ⟨b, rfl⟩
    exact ⟨a, b, by rw [← ha, List.append_assoc]⟩
  · rintro ⟨a, b, h⟩
    refine ⟨needle.data.map Char.toLower ++ b, ?_, ?_⟩
    · rw [List.mem_tails]
      exact ⟨a, by rw [← List.append_assoc, ← h]⟩
    · exact (isPrefixOf_iff_exists _ _).mpr ⟨b, rfl⟩

/-- For a wildcard-free search term, `field ILIKE '%term%'` is exactly the
case-insensitive substring test of the specification. -/
theorem ilike_eq_ciSubstr (term : String)
    (ht : ∀ c ∈ term.data, c ≠ '%' ∧ c ≠ '_' ∧ c ≠ '\\') (s : String) :
    ilikeStr s ('%' :: (term.data ++ ['%'])) = ciSubstr term s := by
  apply bool_eq_of_iff
  rw [ilikeStr, likeMatches_pct_lit_pct term.data ht s.data, ciSubstr_iff]
  constructor
  · rintro ⟨a, b, c, hs, hb⟩
    refine ⟨a.map Char.toLower, c.map Char.toLower, ?_⟩
    rw [hs]
    simp [hb]
  · rintro ⟨a, b, h⟩
    rw [List.append_assoc] at h
    rcases List.map_eq_append_iff.mp h with ⟨l1, l2, hsplit, hl1, hl2⟩
    rcases List.map_eq_append_iff.mp hl2 with ⟨l3, l4, hsplit2, hl3, hl4⟩
    exact ⟨l1, l3, l4, by rw [hsplit, hsplit2, List.append_assoc], hl3⟩

theorem any_map_comp {α β : Type} (f : α → β) (p : β → Bool) :
    ∀ l : List α, (l.map f).any p = l.any (p ∘ f) := by
  intro l
  induction l with
  | nil => rfl
  | cons a t ih => simp [ih, Function.comp]

theorem any_or_five {α : Type} (a b c d e : Bool) (f : α → Bool) (l : List α) (hl : l ≠ []) :
    (l.any fun x => a || b || c || d || e || f x)
      = (a || b || c || d || e || l.any f) := by
  cases l with
  | nil => exact absurd rfl hl
  | cons x t => cases a <;> cases b <;> cases c <;> cases d <;> cases e <;> simp

/-- Under the users primary key and for a wildcard-free term, the WHERE-clause
filter of the source agrees with the substring-based filter the specification
words describe. -/
theorem postMatches_eq_spec (db : DB) (term : String) (p : Post)
    (hu : (db.users.map (·.id)).Nodup)
    (ht : ∀ c ∈ term.data, c ≠ '%' ∧ c ≠ '_' ∧ c ≠ '\\') :
    postMatches db (searchPattern (some term)) p = specSearchMatches db term p := by
  have hsp : searchPattern (some term) = some ('%' :: (term.data ++ ['%'])) := rfl
  unfold postMatches specSearchMatches
  rw [hsp, userJoin_eq db p hu, List.any_cons, List.any_nil, Bool.or_false, tagJoin_eq]
  by_cases hemp : (tagRowsOf db p).isEmpty
  · rw [if_pos hemp, List.any_cons, List.any_nil, Bool.or_false, List.isEmpty_iff.mp hemp,
      List.any_nil]
    cases hauth : authorOf db p with
    | none =>
      simp only [rowMatches, optILike, Option.map_none']
      simp [ilike_eq_ciSubstr term ht]
    | some u =>
      simp only [rowMatches, optILike, Option.map_some']
      simp [ilike_eq_ciSubstr term ht, Bool.or_assoc]
  · rw [if_neg hemp, any_map_comp]
    have hne : tagRowsOf db p ≠ [] := fun h => by rw [h] at hemp; exact hemp rfl
    cases hauth : authorOf db p with
    | none =>
      rw [show ((fun t => rowMatches (some ('%' :: (term.data ++ ['%']))) p none t) ∘ some)
          = (fun tr : PostTag =>
              ilikeStr p.title ('%' :: (term.data ++ ['%'])) ||
              ilikeStr p.body ('%' :: (term.data ++ ['%'])) || false || false || false ||
              ilikeStr tr.tag ('%' :: (term.data ++ ['%']))) from funext fun tr => rfl]
      rw [any_or_five _ _ _ _ _ _ _ hne]
      simp [ilike_eq_ciSubstr term ht]
    | some u =>
      rw [show ((fun t => rowMatches (some ('%' :: (term.data ++ ['%']))) p (some u) t) ∘ some)
          = (fun tr : PostTag =>
              ilikeStr p.title ('%' :: (term.data ++ ['%'])) ||
              ilikeStr p.body ('%' :: (term.data ++ ['%'])) ||
              ilikeStr u.username ('%' :: (term.data ++ ['%'])) ||
              ilikeStr u.first_name ('%' :: (term.data ++ ['%'])) ||
              ilikeStr u.last_name ('%' :: (term.data ++ ['%'])) ||
              ilikeStr tr.tag ('%' :: (term.data ++ ['%']))) from funext fun tr => rfl]
      rw [any_or_five _ _ _ _ _ _ _ hne]
      simp [ilike_eq_ciSubstr term ht, Bool.or_assoc]

/-! Helpers for whole-page listings and record assembly. -/

theorem postMatches_none (db : DB) (p : Post) :
    postMatches db (searchPattern none) p = true := by
  unfold postMatches
  rcases List.exists_mem_of_ne_nil _ (userJoin_ne_nil db p) with ⟨u, hu⟩
  rcases List.exists_mem_of_ne_nil _ (tagJoin_ne_nil db p) with ⟨t, htj⟩
  rw [List.any_eq_true]
  exact ⟨u, hu, List.any_eq_true.mpr ⟨t, htj, rfl⟩⟩

theorem sortedRows_length (db : DB) (pat : Option (List Char)) (hwf : WF db) :
    (sortedRows db pat).length = (matchingPosts db pat).length := by
  rw [sortedRows, List.length_insertionSort, groupedRows_eq db pat hwf, List.length_map]

/-- When the page size covers the whole table, page 1 lists every matching
post (the assembled, sorted rows in full). -/
theorem page1_records (db : DB) (limit : Int) (search : Option String)
    (hl : 1 ≤ limit) (hcap : (db.posts.length : Int) ≤ limit) (hwf : WF db) :
    ∃ meta, find_with_user_and_tags db 1 limit search =
      .ok ((sortedRows db (searchPattern search)).map assembleRecord, meta) := by
  have h := find_ok db 1 limit search (by omega) hl
  have h1 : ((1 : Int) - 1) * limit = 0 := by ring
  have hlen : (sortedRows db (searchPattern search)).length ≤ limit.toNat := by
    rw [sortedRows_length db _ hwf]
    have h2 := List.length_filter_le (postMatches db (searchPattern search)) db.posts
    unfold matchingPosts
    omega
  rw [h1, Int.toNat_zero, List.drop_zero, List.take_of_length_le hlen] at h
  exact ⟨_, h⟩

theorem record_mem_sorted (db : DB) (pat : Option (List Char)) (hwf : WF db) (p : Post)
    (hp : p ∈ matchingPosts db pat) :
    assembleRecord (queryRowOf db pat p) ∈ (sortedRows db pat).map assembleRecord := by
  apply List.mem_map_of_mem
  have h1 : queryRowOf db pat p ∈ groupedRows db pat := by
    rw [groupedRows_eq db pat hwf]
    exact List.mem_map_of_mem _ hp
  exact ((sortedRows_perm db pat).mem_iff).mpr h1

theorem assembleRecord_created_by (db : DB) (pat : Option (List Char)) (p : Post) :
    (assembleRecord (queryRowOf db pat p)).created_by
      = (authorOf db p).map fun u =>
          { user_id := u.id, username := u.username, first_name := u.first_name,
            last_name := some u.last_name } := by
  cases hauth : authorOf db p <;> simp [assembleRecord, queryRowOf, hauth]

theorem postRowsF_none (db : DB) (p : Post) : postRowsF db none p = postRows db p :=
  List.filter_eq_self.mpr fun _ _ => rfl

theorem aggTagsOf_none (db : DB) (p : Post) (hu : (db.users.map (·.id)).Nodup) :
    aggTagsOf db none p = ((tagRowsOf db p).map fun t => some t.tag).dedup := by
  unfold aggTagsOf
  rw [postRowsF_none, postRows_eq db p hu, tagJoin_eq]
  by_cases hemp : (tagRowsOf db p).isEmpty
  · rw [if_pos hemp, List.isEmpty_iff.mp hemp]
    rfl
  · rw [if_neg hemp, List.map_map, List.filterMap_map]
    have h2 : ((fun r : JoinRow => r.2.2) ∘ ((fun t => ((p : Post), authorOf db p, t)) ∘ some))
        = fun t : PostTag => some t := rfl
    rw [h2, List.filterMap_some]

/-! The write path: transactional create of a post with its tags. -/

theorem insertPost_ok (db : DB) (p : Post) (db' : DB) (h : insertPost db p = .ok db') :
    db' = { db with posts := db.posts ++ [p] } := by
  unfold insertPost at h
  split at h
  · simp at h
  · split at h
    · injection h with h
      exact h.symm
    · simp at h

theorem insertPostTags_ok (db : DB) (rows : List PostTag) (db' : DB)
    (h : insertPostTags db rows = .ok db') :
    db' = { db with posts_tags := db.posts_tags ++ rows } := by
  unfold insertPostTags at h
  split at h
  · injection h with h
    exact h.symm
  · simp at h

/-- C6: create_with_tags is atomic.  On success the call returns the created
post and the persistent state is the original store with the post row and one
association row per supplied tag appended (none when the tag list is empty);
if any step of the transaction fails the call returns an error and the
persistent state is exactly the original store — no post row and no tag row
survives. -/
theorem create_with_tags_atomic (db : DB) (post : Post) (tags : List String) :
    (∀ e : RepoError, (create_with_tags db post tags).2 = .error e →
      (create_with_tags db post tags).1 = db) ∧
    (∀ q : Post, (create_with_tags db post tags).2 = .ok q →
      q = post ∧
      (create_with_tags db post tags).1.users = db.users ∧
      (create_with_tags db post tags).1.posts = db.posts ++ [post] ∧
      (create_with_tags db post tags).1.posts_tags
        = db.posts_tags ++ tags.map fun tag => { fk_post_id := post.id, tag := tag }) := by
  unfold create_with_tags runTransaction
  beta_reduce
  cases hip : insertPost db post with
  | error e =>
    constructor
    · intro _ _; rfl
    · intro q hq; simp at hq
  | ok db1 =>
    have hdb1 := insertPost_ok db post db1 hip
    subst hdb1
    cases tags with
    | nil =>
      simp only [List.isEmpty_nil, if_true]
      constructor
      · intro e he; simp at he
      · intro q hq
        simp only [List.map_nil, List.append_nil]
        have hq' : q = post := by simpa using hq.symm
        refine ⟨hq', ?_, ?_, ?_⟩ <;> trivial
    | cons t ts =>
      simp only [List.isEmpty_cons, Bool.false_eq_true, if_false]
      cases hit : insertPostTags { db with posts := db.posts ++ [post] }
          ((t :: ts).map fun tag => { fk_post_id := post.id, tag := tag }) with
      | error e =>
        constructor
        · intro _ _; rfl
        · intro q hq; simp at hq
      | ok db2 =>
        have hdb2 := insertPostTags_ok _ _ _ hit
        subst hdb2
        constructor
        · intro e he; simp at he
        · intro q hq
          have hq' : q = post := by simpa using hq.symm
          refine ⟨hq', ?_, ?_, ?_⟩ <;> trivial

/-- Successful create: fresh post id, existing author, and no composite-key
clash among the tag rows.  The post row and one association row per tag are
appended atomically. -/
theorem create_with_tags_ok (db : DB) (post : Post) (tags : List String)
    (hfresh : post.id ∉ db.posts.map (·.id))
    (hfk : (db.users.any fun u => u.id == post.created_by) = true)
    (hrows : (db.posts_tags ++ tags.map fun tag =>
        ({ fk_post_id := post.id, tag := tag } : PostTag)).Nodup) :
    create_with_tags db post tags =
      ({ users := db.users, posts := db.posts ++ [post],
         posts_tags := db.posts_tags ++ tags.map fun tag =>
           { fk_post_id := post.id, tag := tag } }, .ok post) := by
  have hip : insertPost db post = .ok { db with posts := db.posts ++ [post] } := by
    unfold insertPost
    have h1 : (db.posts.map (·.id)).contains post.id = false := by
      simpa using hfresh
    rw [h1, hfk]
    simp
  have hall : ((tags.map fun tag => ({ fk_post_id := post.id, tag := tag } : PostTag)).all
      fun r => ((db.posts ++ [post]).any fun p => p.id == r.fk_post_id)) = true := by
    rw [List.all_eq_true]
    intro r hr
    rcases List.mem_map.mp hr with ⟨tag, _, rfl⟩
    rw [List.any_eq_true]
    exact ⟨post, by simp, by simp⟩
  have hit : insertPostTags { db with posts := db.posts ++ [post] }
      (tags.map fun tag => { fk_post_id := post.id, tag := tag }) =
      .ok { users := db.users, posts := db.posts ++ [post],
            posts_tags := db.posts_tags ++ tags.map fun tag =>
              { fk_post_id := post.id, tag := tag } } := by
    unfold insertPostTags
    simp [hall, hrows]
  unfold create_with_tags runTransaction
  beta_reduce
  rw [hip]
  by_cases htags : tags.isEmpty
  · have ht' : tags = [] := List.isEmpty_iff.mp htags
    subst ht'
    simp
  · simp only [htags, Bool.false_eq_true, if_false]
    rw [hit]

/-- C10: a tag list containing the same string twice is not de-duplicated:
the bulk insert violates the composite primary key (fk_post_id, tag), the
whole transaction aborts, the call returns an error, and neither the post row
nor any tag row persists. -/
theorem duplicate_tags_abort_transaction (db : DB) (post : Post) (tags : List String)
    (hdup : ¬ tags.Nodup) :
    (create_with_tags db post tags).2 = .error .writeFailed ∧
    (create_with_tags db post tags).1 = db := by
  have hne : tags.isEmpty = false := by
    cases tags with
    | nil => exact absurd List.nodup_nil hdup
    | cons t ts => rfl
  have hrows : ∀ db1 : DB, insertPostTags db1
      (tags.map fun tag => ({ fk_post_id := post.id, tag := tag } : PostTag))
      = .error .writeFailed := by
    intro db1
    unfold insertPostTags
    have hnd : ¬ (db1.posts_tags ++ tags.map fun tag =>
        ({ fk_post_id := post.id, tag := tag } : PostTag)).Nodup := by
      intro h
      exact hdup (List.Nodup.of_map _ h.of_append_right)
    simp [hnd]
  unfold create_with_tags runTransaction
  beta_reduce
  cases hip : insertPost db post with
  | error e =>
    have he : e = .writeFailed := by
      unfold insertPost at hip
      split at hip
      · injection hip with h
        exact h.symm
      · split at hip
        · simp at hip
        · injection hip with h
          exact h.symm
    subst he
    exact ⟨rfl, rfl⟩
  | ok db1 =>
    simp only [hne, Bool.false_eq_true, if_false]
    rw [hrows db1]
    exact ⟨rfl, rfl⟩

/-! The claims. -/

/-- C7: the source has no validation for `limit = 0`: the `total_pages`
computation `(total_docs + limit - 1) / limit` divides by zero, which in Rust
panics the request instead of returning the ValidationError the specification
requires.  The embedding returns the `panicked` failure for every store state,
page and search term. -/
theorem find_limit_zero_panics (db : DB) (page : Int) (search : Option String) :
    find_with_user_and_tags db page 0 search = .error .panicked := rfl

/-- C9: all three query parameters of GET /api/posts are optional: an absent
page behaves as page 1, an absent limit as limit 10, and with all three absent
the listing is exactly an explicit page=1, limit=10, no-search request; an
absent search term applies no filter (the WHERE clause accepts every post). -/
theorem list_posts_defaults (db : DB) (pageO limitO : Option Int) (search : Option String) :
    list_posts db none limitO search = list_posts db (some 1) limitO search ∧
    list_posts db pageO none search = list_posts db pageO (some 10) search ∧
    list_posts db none none none = find_with_user_and_tags db 1 10 none ∧
    ∀ p : Post, postMatches db (searchPattern none) p = true :=
  ⟨rfl, rfl, rfl, fun p => postMatches_none db p⟩

/-- C1: for every valid listing request (page ≥ 1, limit ≥ 1, optional search)
over a well-formed store, the call succeeds and the metadata satisfies
current_page = page, per_page = limit, from = (page-1)*limit + 1,
to = min((page-1)*limit + limit, total_docs), total_pages = ⌈total_docs/limit⌉,
and total_docs equals the number of distinct posts satisfying the same filter
predicate that selects the page's rows; every returned record is one of those
matching posts (count and fetch never drift apart). -/
theorem find_with_user_and_tags_meta_correct (db : DB) (page limit : Int)
    (search : Option String) (hwf : WF db) (hp : 1 ≤ page) (hl : 1 ≤ limit) :
    ∃ records meta, find_with_user_and_tags db page limit search = .ok (records, meta) ∧
      meta.current_page = page ∧
      meta.per_page = limit ∧
      meta.from_ = (page - 1) * limit + 1 ∧
      meta.to_ = min ((page - 1) * limit + limit) meta.total_docs ∧
      meta.total_docs = ((matchingPosts db (searchPattern search)).length : Int) ∧
      meta.total_pages = ⌈(meta.total_docs : ℚ) / (limit : ℚ)⌉ ∧
      ∀ r ∈ records, ∃ p ∈ db.posts,
        postMatches db (searchPattern search) p = true ∧ p.id = r.id := by
  have h := find_ok db page limit search hp hl
  refine ⟨_, _, h, rfl, rfl, rfl, rfl, countDistinct_eq db _ hwf, ?_, ?_⟩
  · exact tdiv_ceil _ _ (by unfold countDistinctIds; exact Int.natCast_nonneg _) hl
  · intro r hr
    rcases List.mem_map.mp hr with ⟨qr, hqr, rfl⟩
    have h1 : qr ∈ sortedRows db (searchPattern search) :=
      ((List.take_sublist _ _).trans (List.drop_sublist _ _)).subset hqr
    have h2 : qr ∈ groupedRows db (searchPattern search) :=
      (sortedRows_perm db _).mem_iff.mp h1
    rw [groupedRows_eq db _ hwf] at h2
    rcases List.mem_map.mp h2 with ⟨p, hp2, rfl⟩
    have hp3 := List.mem_filter.mp hp2
    exact ⟨p, hp3.1, hp3.2, rfl⟩

/-- C2: for every filter over a well-formed store, a returned page contains
each matching post at most once: the record ids of one page are pairwise
distinct, regardless of the join fan-out through tags and author rows. -/
theorem find_with_user_and_tags_no_duplicates (db : DB) (page limit : Int)
    (search : Option String) (hwf : WF db) (hp : 1 ≤ page) (hl : 1 ≤ limit) :
    ∃ records meta, find_with_user_and_tags db page limit search = .ok (records, meta) ∧
      (records.map (·.id)).Nodup := by
  have h := find_ok db page limit search hp hl
  refine ⟨_, _, h, ?_⟩
  have hgids : ((groupedRows db (searchPattern search)).map (·.id)).Nodup := by
    rw [groupedRows_eq db _ hwf, List.map_map]
    have hsub : ((matchingPosts db (searchPattern search)).map fun p : Post => p.id).Sublist
        (db.posts.map fun p : Post => p.id) := (List.filter_sublist _).map _
    exact hsub.nodup hwf.1
  have hsids : ((sortedRows db (searchPattern search)).map (·.id)).Nodup :=
    (((sortedRows_perm db (searchPattern search)).map (·.id)).symm).nodup hgids
  rw [List.map_map]
  have hslice : ((((sortedRows db (searchPattern search)).drop
      ((page - 1) * limit).toNat).take limit.toNat)).Sublist
      (sortedRows db (searchPattern search)) :=
    (List.take_sublist _ _).trans (List.drop_sublist _ _)
  exact (hslice.map _).nodup hsids

/-- C5: a post whose created_by resolves to no user row is still listed
(matched on its own columns, reported with created_by = none), and every
returned record carries an author sub-record exactly when the author lookup
succeeds, with the author's fields. -/
theorem find_tolerates_dangling_author (db : DB) (limit : Int) (search : Option String)
    (p : Post) (hwf : WF db) (hl : 1 ≤ limit) (hcap : (db.posts.length : Int) ≤ limit)
    (hp : p ∈ db.posts) (hdangle : ∀ u ∈ db.users, u.id ≠ p.created_by)
    (hm : postMatches db (searchPattern search) p = true) :
    ∃ records meta, find_with_user_and_tags db 1 limit search = .ok (records, meta) ∧
      (∃ r ∈ records, r.id = p.id ∧ r.created_by = none) ∧
      ∀ r ∈ records, ∃ q ∈ db.posts, q.id = r.id ∧
        r.created_by = (authorOf db q).map fun u =>
          { user_id := u.id, username := u.username, first_name := u.first_name,
            last_name := some u.last_name } := by
  rcases page1_records db limit search hl hcap hwf with ⟨meta, hfind⟩
  refine ⟨_, meta, hfind, ?_, ?_⟩
  · have hpm : p ∈ matchingPosts db (searchPattern search) :=
      List.mem_filter.mpr ⟨hp, hm⟩
    refine ⟨assembleRecord (queryRowOf db (searchPattern search) p),
      record_mem_sorted db _ hwf p hpm, rfl, ?_⟩
    have hauth : authorOf db p = none := by
      unfold authorOf
      rw [List.find?_eq_none]
      intro u hu
      simp [hdangle u hu]
    rw [assembleRecord_created_by, hauth]
    rfl
  · intro r hr
    rcases List.mem_map.mp hr with ⟨qr, hqr, rfl⟩
    have h2 : qr ∈ groupedRows db (searchPattern search) :=
      (sortedRows_perm db _).mem_iff.mp hqr
    rw [groupedRows_eq db _ hwf] at h2
    rcases List.mem_map.mp h2 with ⟨q, hq2, rfl⟩
    exact ⟨q, List.mem_of_mem_filter hq2, rfl, assembleRecord_created_by db _ q⟩

/-- C3 amended: for a search term free of the SQL wildcard and escape
characters '%', '_' and backslash, a post matches the listing filter exactly
when the term occurs as a case-insensitive unanchored substring of the post's
title, the post's body, the author's username, first name or last name, or at
least one of the post's tags; when the term is absent every post matches.
For terms containing wildcard characters the unescaped ILIKE pattern applies
wildcard semantics instead (see the counterexample). -/
theorem search_filter_iff_spec_substring (db : DB) (term : String) (p : Post)
    (hwf : WF db) (ht : ∀ c ∈ term.data, c ≠ '%' ∧ c ≠ '_' ∧ c ≠ '\\') :
    postMatches db (searchPattern (some term)) p = specSearchMatches db term p ∧
    (p ∈ matchingPosts db (searchPattern (some term)) ↔
      p ∈ db.posts ∧ specSearchMatches db term p = true) ∧
    postMatches db (searchPattern none) p = true := by
  have h1 := postMatches_eq_spec db term p hwf.2.1 ht
  refine ⟨h1, ?_, postMatches_none db p⟩
  unfold matchingPosts
  rw [List.mem_filter, h1]

def cx3db : DB :=
  { users := [],
    posts := [{ id := 1, title := "abc", body := "zz", created_by := 5, created_at := 0 }],
    posts_tags := [] }

def cx3post : Post := { id := 1, title := "abc", body := "zz", created_by := 5, created_at := 0 }

/-- C3 counterexample: the term "a_c" occurs as a case-insensitive substring
of no column of the stored post, yet the post matches the listing filter and
is returned by the filtered listing, because the underscore is an SQL
single-character wildcard in the unescaped ILIKE pattern. -/
theorem search_wildcard_counterexample :
    postMatches cx3db (searchPattern (some "a_c")) cx3post = true ∧
    specSearchMatches cx3db "a_c" cx3post = false ∧
    ((find_with_user_and_tags cx3db 1 10 (some "a_c")).toOption.map
      fun pr => pr.1.map (·.id)) = some [1] := by decide

/-- The store produced by a successful create of a post with its tags. -/
def createdDB (db : DB) (post : Post) (tags : List String) : DB :=
  { users := db.users, posts := db.posts ++ [post],
    posts_tags := db.posts_tags ++ tags.map fun tag => { fk_post_id := post.id, tag := tag } }

/-- C4 amended: a post created by create_with_tags with distinct tags and a
fresh id, over a well-formed store, is returned by a later UNFILTERED fetch
with a tags collection equal (order-insensitively) to exactly the supplied
tags: never fewer, never duplicated, never containing a null placeholder
(also when the tag list is empty).  Under a search term, only tags whose join
rows pass the WHERE filter are aggregated - a search matching the post only
through one tag returns that tag alone (see the counterexample). -/
theorem create_then_unfiltered_fetch_exact_tags (db : DB) (post : Post)
    (tags : List String) (limit : Int) (hwf : WF db)
    (hfresh : post.id ∉ db.posts.map (·.id))
    (hfk : (db.users.any fun u => u.id == post.created_by) = true)
    (hnotag : ∀ pt ∈ db.posts_tags, pt.fk_post_id ≠ post.id)
    (hnd : tags.Nodup) (hl : 1 ≤ limit)
    (hcap : (db.posts.length : Int) + 1 ≤ limit) :
    ∃ db' records meta,
      create_with_tags db post tags = (db', .ok post) ∧
      find_with_user_and_tags db' 1 limit none = .ok (records, meta) ∧
      ∃ r ∈ records, r.id = post.id ∧ r.tags.Perm tags ∧ r.tags.Nodup := by
  have hrowsnd : (tags.map fun tag => ({ fk_post_id := post.id, tag := tag } : PostTag)).Nodup :=
    List.Nodup.map_on (fun a _ b _ h => congrArg PostTag.tag h) hnd
  have hdisj : db.posts_tags.Disjoint
      (tags.map fun tag => ({ fk_post_id := post.id, tag := tag } : PostTag)) := by
    rw [List.disjoint_left]
    intro a ha hamem
    rcases List.mem_map.mp hamem with ⟨tag, _, rfl⟩
    exact hnotag _ ha rfl
  have happnd : (db.posts_tags ++ tags.map fun tag =>
      ({ fk_post_id := post.id, tag := tag } : PostTag)).Nodup :=
    hwf.2.2.append hrowsnd hdisj
  have hcreate : create_with_tags db post tags = (createdDB db post tags, .ok post) :=
    create_with_tags_ok db post tags hfresh hfk happnd
  have hwf' : WF (createdDB db post tags) := by
    refine ⟨?_, hwf.2.1, happnd⟩
    show ((db.posts ++ [post]).map (·.id)).Nodup
    rw [List.map_append]
    refine List.Nodup.append hwf.1 (by simp) ?_
    rw [List.disjoint_left]
    intro a ha hamem
    simp only [List.map_cons, List.map_nil, List.mem_cons, List.not_mem_nil, or_false] at hamem
    exact hfresh (hamem ▸ ha)
  have hcap' : ((createdDB db post tags).posts.length : Int) ≤ limit := by
    show (((db.posts ++ [post]).length : Nat) : Int) ≤ limit
    rw [List.length_append, List.length_cons, List.length_nil]
    push_cast
    omega
  rcases page1_records (createdDB db post tags) limit none hl hcap' hwf' with ⟨meta, hfind⟩
  have hpmem : post ∈ matchingPosts (createdDB db post tags) (searchPattern none) :=
    List.mem_filter.mpr ⟨by show post ∈ db.posts ++ [post]; simp,
      postMatches_none _ post⟩
  refine ⟨createdDB db post tags, _, meta, hcreate, hfind, ?_⟩
  refine ⟨assembleRecord (queryRowOf (createdDB db post tags) (searchPattern none) post),
    record_mem_sorted _ _ hwf' post hpmem, rfl, ?_⟩
  have htagrows : tagRowsOf (createdDB db post tags) post
      = tags.map fun tag => ({ fk_post_id := post.id, tag := tag } : PostTag) := by
    show ((db.posts_tags ++ tags.map fun tag =>
      ({ fk_post_id := post.id, tag := tag } : PostTag)).filter
        fun t => t.fk_post_id == post.id) = _
    rw [List.filter_append]
    have h1 : db.posts_tags.filter (fun t => t.fk_post_id == post.id) = [] := by
      apply List.filter_eq_nil_iff.mpr
      intro a ha
      simp [hnotag a ha]
    have h2 : ((tags.map fun tag => ({ fk_post_id := post.id, tag := tag } : PostTag)).filter
        fun t => t.fk_post_id == post.id)
        = tags.map fun tag => ({ fk_post_id := post.id, tag := tag } : PostTag) := by
      apply List.filter_eq_self.mpr
      intro a ha
      rcases List.mem_map.mp ha with ⟨tag, _, rfl⟩
      simp
    rw [h1, h2, List.nil_append]
  have htags : (assembleRecord (queryRowOf (createdDB db post tags)
      (searchPattern none) post)).tags = tags := by
    show (aggTagsOf (createdDB db post tags) (searchPattern none) post).filterMap id = tags
    rw [show searchPattern (none : Option String) = none from rfl,
      aggTagsOf_none _ post hwf'.2.1, htagrows, List.map_map]
    rw [show ((fun t : PostTag => some t.tag) ∘ fun tag =>
        ({ fk_post_id := post.id, tag := tag } : PostTag)) = fun tag : String => some tag
      from rfl]
    have hsomend : (tags.map fun tag : String => some tag).Nodup :=
      List.Nodup.map_on (fun a _ b _ h => Option.some.inj h) hnd
    rw [List.dedup_eq_self.mpr hsomend, List.filterMap_map,
      show (id ∘ fun tag : String => some tag) = fun tag : String => some tag from rfl,
      List.filterMap_some]
  rw [htags]
  exact ⟨List.Perm.refl _, hnd⟩

def cx4user : User :=
  { id := 10, username := "alice", first_name := "Al", last_name := "Ice", created_at := 0 }

def cx4base : DB := { users := [cx4user], posts := [], posts_tags := [] }

def cx4post : Post := { id := 1, title := "t", body := "b", created_by := 10, created_at := 5 }

/-- C4 counterexample: a post created with the tags rust and go, fetched under
the search term "rust", is returned with the tags collection ["rust"] only:
the WHERE clause filters the join rows before GROUP BY, so the row carrying
the tag go does not survive into ARRAY_AGG.  The claim's tag-completeness
fails for this fetch of the post. -/
theorem tag_search_drops_sibling_tags :
    (create_with_tags cx4base cx4post ["rust", "go"]).2 = .ok cx4post ∧
    ((find_with_user_and_tags (create_with_tags cx4base cx4post ["rust", "go"]).1
        1 10 (some "rust")).toOption.map fun pr => pr.1.map fun r => (r.id, r.tags))
      = some [(1, ["rust"])] ∧
    ¬ ∃ r ∈ (((find_with_user_and_tags (create_with_tags cx4base cx4post ["rust", "go"]).1
        1 10 (some "rust")).toOption.map fun pr => pr.1).getD []),
      r.id = cx4post.id ∧ r.tags.Perm ["rust", "go"] := by decide

/-! Concrete stores used by the witnesses. -/

def exUser : User :=
  { id := 10, username := "alice", first_name := "Al", last_name := "Ice", created_at := 0 }

def exPost1 : Post :=
  { id := 1, title := "Rust Basics", body := "intro", created_by := 10, created_at := 5 }

def exPost2 : Post :=
  { id := 2, title := "Other", body := "zz", created_by := 10, created_at := 7 }

def exDB : DB :=
  { users := [exUser], posts := [exPost1, exPost2],
    posts_tags := [{ fk_post_id := 2, tag := "rust" }, { fk_post_id := 2, tag := "go" }] }

def dgPost : Post :=
  { id := 3, title := "Lone", body := "dangling", created_by := 99, created_at := 1 }

def dgDB : DB := { users := [exUser], posts := [dgPost], posts_tags := [] }

def dupPost : Post := { id := 5, title := "d", body := "e", created_by := 10, created_at := 8 }

def freshPost : Post := { id := 7, title := "f", body := "g", created_by := 10, created_at := 9 }

/-- Witness for C1 at a concrete store and request. -/
theorem find_with_user_and_tags_meta_correct_witness :
    ∃ records meta, find_with_user_and_tags exDB 1 10 (some "rust") = .ok (records, meta) ∧
      meta.current_page = 1 ∧
      meta.per_page = 10 ∧
      meta.from_ = ((1 : Int) - 1) * 10 + 1 ∧
      meta.to_ = min (((1 : Int) - 1) * 10 + 10) meta.total_docs ∧
      meta.total_docs = ((matchingPosts exDB (searchPattern (some "rust"))).length : Int) ∧
      meta.total_pages = ⌈(meta.total_docs : ℚ) / ((10 : Int) : ℚ)⌉ ∧
      ∀ r ∈ records, ∃ p ∈ exDB.posts,
        postMatches exDB (searchPattern (some "rust")) p = true ∧ p.id = r.id :=
  find_with_user_and_tags_meta_correct exDB 1 10 (some "rust") (by decide) (by decide)
    (by decide)

/-- Witness for C2 at a concrete store and request. -/
theorem find_with_user_and_tags_no_duplicates_witness :
    ∃ records meta, find_with_user_and_tags exDB 1 10 none = .ok (records, meta) ∧
      (records.map (·.id)).Nodup :=
  find_with_user_and_tags_no_duplicates exDB 1 10 none (by decide) (by decide) (by decide)

/-- Witness for C5 at a concrete store with a dangling author reference. -/
theorem find_tolerates_dangling_author_witness :
    ∃ records meta, find_with_user_and_tags dgDB 1 10 none = .ok (records, meta) ∧
      (∃ r ∈ records, r.id = dgPost.id ∧ r.created_by = none) ∧
      ∀ r ∈ records, ∃ q ∈ dgDB.posts, q.id = r.id ∧
        r.created_by = (authorOf dgDB q).map fun u =>
          { user_id := u.id, username := u.username, first_name := u.first_name,
            last_name := some u.last_name } :=
  find_tolerates_dangling_author dgDB 10 none dgPost (by decide) (by decide) (by decide)
    (by decide) (by decide) (by decide)

/-- Witness for the amended C3 at a concrete store and term. -/
theorem search_filter_iff_spec_substring_witness :
    postMatches exDB (searchPattern (some "rust")) exPost2
      = specSearchMatches exDB "rust" exPost2 ∧
    (exPost2 ∈ matchingPosts exDB (searchPattern (some "rust")) ↔
      exPost2 ∈ exDB.posts ∧ specSearchMatches exDB "rust" exPost2 = true) ∧
    postMatches exDB (searchPattern none) exPost2 = true :=
  search_filter_iff_spec_substring exDB "rust" exPost2 (by decide) (by decide)

/-- Witness for the amended C4 at a concrete store, post and tag list. -/
theorem create_then_unfiltered_fetch_exact_tags_witness :
    ∃ db' records meta,
      create_with_tags cx4base freshPost ["x", "y", "z"] = (db', .ok freshPost) ∧
      find_with_user_and_tags db' 1 10 none = .ok (records, meta) ∧
      ∃ r ∈ records, r.id = freshPost.id ∧ r.tags.Perm ["x", "y", "z"] ∧ r.tags.Nodup :=
  create_then_unfiltered_fetch_exact_tags cx4base freshPost ["x", "y", "z"] 10 (by decide)
    (by decide) (by decide) (by decide) (by decide) (by decide) (by decide)

/-- Witness for C6: a failing transaction leaves the store unchanged, a
successful one appends exactly the post row and its tag rows. -/
theorem create_with_tags_atomic_witness :
    (create_with_tags exDB dupPost ["a", "a"]).1 = exDB ∧
    (create_with_tags exDB freshPost ["x"]).1.posts = exDB.posts ++ [freshPost] :=
  ⟨(create_with_tags_atomic exDB dupPost ["a", "a"]).1 .writeFailed (by decide),
    ((create_with_tags_atomic exDB freshPost ["x"]).2 freshPost (by decide)).2.2.1⟩

/-- Witness for C10 at a concrete duplicated tag list. -/
theorem duplicate_tags_abort_transaction_witness :
    (create_with_tags exDB dupPost ["a", "a"]).2 = .error .writeFailed ∧
    (create_with_tags exDB dupPost ["a", "a"]).1 = exDB :=
  duplicate_tags_abort_transaction exDB dupPost ["a", "a"] (by decide)
